import Mathlib

set_option maxHeartbeats 1000000

/-!
Shallow embedding of the paper-deduplication and filtering pipeline of
`lark_bot/arxiv_paper.py` and `lark_bot/lark_table.py`, together with proofs
of the specified properties.  Python dicts for papers become a structure,
Python exceptions become `Except.error`, the JSON record-store file becomes a
`FileState`, and the external collaborators (the `llm` module's
`is_paper_match` / `translate_abstract`, the `json` codec, and the Lark HTTP
service) become function parameters, as the specification treats them as
black-box fallible capabilities.
-/

/-- A paper record, mirroring the dict fields used by `lark_bot`.  The field
`zh_summary` is `none` while the key is absent from the dict, and `some v`
once `paper["zh_summary"] = v` has run, where `v = none` models Python
`None` and `v = some s` a translated abstract `s`. -/
structure Paper where
  id : String
  title : String
  summary : String
  pdf : String
  zh_summary : Option (Option String) := none
deriving DecidableEq

/-- Loop body of `deduplicate_papers_across_categories`
(`arxiv_paper.py` lines 19-24): `seen` models the `papers_id` set (as the
list of ids inserted so far) and the returned list is `deduplicated_papers`. -/
def dedupAcrossGo (seen : List String) : List Paper → List Paper
  | [] => []
  | p :: ps =>
    if p.id ∈ seen then dedupAcrossGo seen ps
    else p :: dedupAcrossGo (p.id :: seen) ps

/-- `deduplicate_papers_across_categories` from `lark_bot/arxiv_paper.py`:
keep the first occurrence of each id, in order. -/
def deduplicate_papers_across_categories (papers : List Paper) : List Paper :=
  dedupAcrossGo [] papers

theorem dedupAcrossGo_sublist (ps : List Paper) :
    ∀ seen, (dedupAcrossGo seen ps).Sublist ps := by
  induction ps with
  | nil => intro seen; simp [dedupAcrossGo]
  | cons p ps ih =>
    intro seen
    by_cases h : p.id ∈ seen
    · simp only [dedupAcrossGo, if_pos h]
      exact (ih seen).cons p
    · simp only [dedupAcrossGo, if_neg h]
      exact (ih (p.id :: seen)).cons₂ p

theorem dedupAcrossGo_id_not_seen (ps : List Paper) :
    ∀ seen q, q ∈ dedupAcrossGo seen ps → q.id ∉ seen := by
  induction ps with
  | nil => intro seen q hq; simp [dedupAcrossGo] at hq
  | cons p ps ih =>
    intro seen q hq
    by_cases h : p.id ∈ seen
    · simp only [dedupAcrossGo, if_pos h] at hq
      exact ih seen q hq
    · simp only [dedupAcrossGo, if_neg h] at hq
      rcases List.mem_cons.mp hq with hq | hq
      · subst hq; exact h
      · have := ih (p.id :: seen) q hq
        intro hmem
        exact this (List.mem_cons_of_mem _ hmem)

theorem dedupAcrossGo_nodup (ps : List Paper) :
    ∀ seen, ((dedupAcrossGo seen ps).map Paper.id).Nodup := by
  induction ps with
  | nil => intro seen; simp [dedupAcrossGo]
  | cons p ps ih =>
    intro seen
    by_cases h : p.id ∈ seen
    · simp only [dedupAcrossGo, if_pos h]
      exact ih seen
    · simp only [dedupAcrossGo, if_neg h, List.map_cons]
      refine List.nodup_cons.mpr ⟨?_, ih (p.id :: seen)⟩
      intro hmem
      rcases List.mem_map.mp hmem with ⟨q, hq, hqid⟩
      exact dedupAcrossGo_id_not_seen ps (p.id :: seen) q hq (hqid ▸ List.mem_cons_self _ _)

theorem dedupAcrossGo_find (ps : List Paper) :
    ∀ seen q, q ∈ dedupAcrossGo seen ps →
      ps.find? (fun r => r.id == q.id) = some q := by
  induction ps with
  | nil => intro seen q hq; simp [dedupAcrossGo] at hq
  | cons p ps ih =>
    intro seen q hq
    by_cases h : p.id ∈ seen
    · simp only [dedupAcrossGo, if_pos h] at hq
      have hne : (p.id == q.id) = false := by
        refine beq_eq_false_iff_ne.mpr ?_
        intro heq
        exact dedupAcrossGo_id_not_seen ps seen q hq (heq ▸ h)
      simp only [List.find?_cons, hne]
      exact ih seen q hq
    · simp only [dedupAcrossGo, if_neg h] at hq
      rcases List.mem_cons.mp hq with hq | hq
      · subst hq
        simp [List.find?_cons]
      · have hns := dedupAcrossGo_id_not_seen ps (p.id :: seen) q hq
        have hne : (p.id == q.id) = false := by
          refine beq_eq_false_iff_ne.mpr ?_
          intro heq
          exact hns (heq ▸ List.mem_cons_self _ _)
        simp only [List.find?_cons, hne]
        exact ih (p.id :: seen) q hq

theorem dedupAcrossGo_covers (ps : List Paper) :
    ∀ seen q, q ∈ ps →
      q.id ∈ seen ∨ ∃ r, r ∈ dedupAcrossGo seen ps ∧ r.id = q.id := by
  induction ps with
  | nil => intro seen q hq; simp at hq
  | cons p ps ih =>
    intro seen q hq
    by_cases h : p.id ∈ seen
    · simp only [dedupAcrossGo, if_pos h]
      rcases List.mem_cons.mp hq with hq | hq
      · subst hq; exact Or.inl h
      · exact ih seen q hq
    · simp only [dedupAcrossGo, if_neg h]
      rcases List.mem_cons.mp hq with hq | hq
      · subst hq
        exact Or.inr ⟨q, List.mem_cons_self _ _, rfl⟩
      · rcases ih (p.id :: seen) q hq with hin | ⟨r, hr, hrid⟩
        · rcases List.mem_cons.mp hin with hin | hin
          · exact Or.inr ⟨p, List.mem_cons_self _ _, hin.symm⟩
          · exact Or.inl hin
        · exact Or.inr ⟨r, List.mem_cons_of_mem _ hr, hrid⟩

theorem dedupAcrossGo_of_nodup (ps : List Paper) :
    ∀ seen, (∀ q ∈ ps, q.id ∉ seen) → (ps.map Paper.id).Nodup →
      dedupAcrossGo seen ps = ps := by
  induction ps with
  | nil => intro seen _ _; rfl
  | cons p ps ih =>
    intro seen hseen hnd
    have hp : p.id ∉ seen := hseen p (List.mem_cons_self _ _)
    simp only [dedupAcrossGo, if_neg hp]
    rw [List.map_cons] at hnd
    have hnd' := List.nodup_cons.mp hnd
    refine congrArg (p :: ·) (ih (p.id :: seen) ?_ hnd'.2)
    intro q hq hmem
    rcases List.mem_cons.mp hmem with hmem | hmem
    · exact hnd'.1 (hmem ▸ List.mem_map_of_mem Paper.id hq)
    · exact hseen q (List.mem_cons_of_mem _ hq) hmem

/-- C3: `deduplicate_papers_across_categories` returns a list in which each
distinct id occurs exactly once (the mapped ids are nodup), each retained
paper is the first occurrence of its id in the input (`find?` on the input by
that id returns exactly the retained paper), every input id is represented,
the output is an order-preserving sublist of the input, and the output size
is at most the input size.  The function is a pure `def`, so it has no side
effects. -/
theorem deduplicate_across_spec (xs : List Paper) :
    (deduplicate_papers_across_categories xs).Sublist xs ∧
    (deduplicate_papers_across_categories xs).length ≤ xs.length ∧
    ((deduplicate_papers_across_categories xs).map Paper.id).Nodup ∧
    (∀ p, p ∈ deduplicate_papers_across_categories xs →
      xs.find? (fun r => r.id == p.id) = some p) ∧
    (∀ p, p ∈ xs → ∃ r, r ∈ deduplicate_papers_across_categories xs ∧ r.id = p.id) := by
  refine ⟨dedupAcrossGo_sublist xs [], (dedupAcrossGo_sublist xs []).length_le,
    dedupAcrossGo_nodup xs [], fun p hp => dedupAcrossGo_find xs [] p hp, fun p hp => ?_⟩
  rcases dedupAcrossGo_covers xs [] p hp with hin | h
  · simp at hin
  · exact h

/-- Concrete papers used in witnesses and counterexamples. -/
def pA : Paper := { id := "a", title := "A", summary := "s", pdf := "ua" }

def pB : Paper := { id := "b", title := "B", summary := "t", pdf := "ub" }

def pA2 : Paper := { id := "a", title := "A2", summary := "s2", pdf := "ua2" }

/-- Witness for C3: on the list `[pA, pB, pA2]` (ids "a", "b", "a"), the paper
`pA` is retained and is the first occurrence of id "a" in the input. -/
theorem deduplicate_across_spec_witness :
    List.find? (fun r => r.id == pA.id) [pA, pB, pA2] = some pA :=
  (deduplicate_across_spec [pA, pB, pA2]).2.2.2.1 pA (by decide)

/-- C8: `deduplicate_papers_across_categories` is idempotent: applying it
twice equals applying it once, for every input list. -/
theorem deduplicate_across_idempotent (xs : List Paper) :
    deduplicate_papers_across_categories (deduplicate_papers_across_categories xs)
      = deduplicate_papers_across_categories xs := by
  unfold deduplicate_papers_across_categories
  exact dedupAcrossGo_of_nodup _ [] (by intro q _ h; simp at h) (dedupAcrossGo_nodup xs [])

/-- Whitespace test of Python `str.split()` with no arguments, restricted to
the ASCII whitespace characters (abstracts are ASCII text; the Unicode-only
space characters are outside the scope of this embedding). -/
def pyIsSpace (c : Char) : Bool :=
  c == ' ' || c == '\t' || c == '\n' || c == '\r' || c == '\x0b' || c == '\x0c'

/-- Python `str.lower()`, applied characterwise on the ASCII range, exactly
what `paper['summary'].lower()` and `keyword.lower()` perform on the ASCII
text this pipeline handles. -/
def pyLower (s : String) : String :=
  String.mk (s.data.map Char.toLower)

/-- Accumulator loop of Python `str.split()`: runs of whitespace separate
tokens, and empty tokens are never produced.  `acc` holds the reversed
characters of the token being built. -/
def pySplitGo : List Char → List Char → List String
  | [], acc => if acc.isEmpty then [] else [String.mk acc.reverse]
  | c :: cs, acc =>
    if pyIsSpace c then
      if acc.isEmpty then pySplitGo cs []
      else String.mk acc.reverse :: pySplitGo cs []
    else pySplitGo cs (c :: acc)

/-- Python `str.split()` with no arguments: split on runs of whitespace,
discarding empty pieces. -/
def pySplit (s : String) : List String :=
  pySplitGo s.data []

/-- Loop of `filter_papers_by_keyword` (`arxiv_paper.py` lines 43-46): a paper
is kept when the set of lowercased keywords intersects the set of
whitespace-delimited tokens of its lowercased summary. -/
def filterByKeywordGo (keyword_set : List String) : List Paper → List Paper
  | [] => []
  | p :: ps =>
    if (pySplit (pyLower p.summary)).any (fun t => keyword_set.contains t) then
      p :: filterByKeywordGo keyword_set ps
    else filterByKeywordGo keyword_set ps

/-- `filter_papers_by_keyword` from `lark_bot/arxiv_paper.py`. -/
def filter_papers_by_keyword (papers : List Paper) (keyword_list : List String) : List Paper :=
  filterByKeywordGo (keyword_list.map pyLower) papers

theorem filterByKeywordGo_eq_filter (ks : List String) (ps : List Paper) :
    filterByKeywordGo ks ps =
      ps.filter (fun p => (pySplit (pyLower p.summary)).any (fun t => ks.contains t)) := by
  induction ps with
  | nil => rfl
  | cons p ps ih =>
    by_cases h : (pySplit (pyLower p.summary)).any (fun t => ks.contains t) = true
    · simp only [filterByKeywordGo, if_pos h, List.filter_cons, h, ih]
    · rw [Bool.not_eq_true] at h
      simp only [filterByKeywordGo, h, if_neg Bool.false_ne_true, List.filter_cons, ih]

theorem keywordMatch_iff (K : List String) (p : Paper) :
    (pySplit (pyLower p.summary)).any (fun t => (K.map pyLower).contains t) = true ↔
      ∃ k, k ∈ K ∧ pyLower k ∈ pySplit (pyLower p.summary) := by
  rw [List.any_eq_true]
  constructor
  · rintro ⟨t, ht, hc⟩
    have : t ∈ K.map pyLower := by
      rw [List.contains] at hc
      exact List.elem_iff.mp hc
    rcases List.mem_map.mp this with ⟨k, hk, hkt⟩
    exact ⟨k, hk, hkt ▸ ht⟩
  · rintro ⟨k, hk, hmem⟩
    refine ⟨pyLower k, hmem, ?_⟩
    rw [List.contains]
    exact List.elem_iff.mpr (List.mem_map_of_mem pyLower hk)

/-- C4: a paper is retained by `filter_papers_by_keyword` iff some keyword,
lowercased, occurs among the whitespace-delimited tokens of the paper's
lowercased summary (exact-token intersection, not substring search); with an
empty keyword list the result is empty for every paper list; and the output
is an order-preserving sublist of the input. -/
theorem filter_by_keyword_spec (P : List Paper) (K : List String) :
    (∀ p, p ∈ filter_papers_by_keyword P K ↔
      p ∈ P ∧ ∃ k, k ∈ K ∧ pyLower k ∈ pySplit (pyLower p.summary)) ∧
    filter_papers_by_keyword P [] = [] ∧
    (filter_papers_by_keyword P K).Sublist P := by
  refine ⟨fun p => ?_, ?_, ?_⟩
  · rw [filter_papers_by_keyword, filterByKeywordGo_eq_filter, List.mem_filter,
      keywordMatch_iff]
  · rw [filter_papers_by_keyword, filterByKeywordGo_eq_filter]
    simp [List.contains]
  · rw [filter_papers_by_keyword, filterByKeywordGo_eq_filter]
    exact List.filter_sublist P

/-- Witness for C4: the paper `pA` (summary "s") is retained from `[pA, pB]`
by the keyword list `["S"]`, which lowercases to the token "s". -/
theorem filter_by_keyword_spec_witness :
    pA ∈ filter_papers_by_keyword [pA, pB] ["S"] :=
  ((filter_by_keyword_spec [pA, pB] ["S"]).1 pA).mpr (by decide)

theorem pyIsSpace_toLower_self {c : Char} (h : pyIsSpace c = true) :
    Char.toLower c = c := by
  simp only [pyIsSpace, Bool.or_eq_true, beq_iff_eq] at h
  rcases h with ((((h | h) | h) | h) | h) | h <;> subst h <;> decide

theorem pySplitGo_no_space (cs : List Char) :
    ∀ acc, (∀ c ∈ acc, pyIsSpace c = false) →
      ∀ t ∈ pySplitGo cs acc, ∀ c ∈ t.data, pyIsSpace c = false := by
  induction cs with
  | nil =>
    intro acc hacc t ht c hc
    by_cases he : acc.isEmpty
    · simp [pySplitGo, he] at ht
    · simp only [pySplitGo, if_neg he, List.mem_singleton] at ht
      subst ht
      exact hacc c (List.mem_reverse.mp hc)
  | cons d ds ih =>
    intro acc hacc t ht c hc
    by_cases hd : pyIsSpace d = true
    · by_cases he : acc.isEmpty
      · simp only [pySplitGo, if_pos hd, if_pos he] at ht
        exact ih [] (by intro c hc; simp at hc) t ht c hc
      · simp only [pySplitGo, if_pos hd, if_neg he, List.mem_cons] at ht
        rcases ht with ht | ht
        · subst ht
          exact hacc c (List.mem_reverse.mp hc)
        · exact ih [] (by intro c hc; simp at hc) t ht c hc
    · rw [Bool.not_eq_true] at hd
      simp only [pySplitGo, hd, if_neg Bool.false_ne_true] at ht
      refine ih (d :: acc) ?_ t ht c hc
      intro e he
      rcases List.mem_cons.mp he with he | he
      · exact he ▸ hd
      · exact hacc e he

/-- C10: a keyword containing a whitespace character can never match, because
summary tokens are whitespace-free while `keyword.lower()` is never split;
hence when every keyword contains some whitespace, `filter_papers_by_keyword`
returns the empty list for every paper list. -/
theorem filter_whitespace_keyword_no_match (P : List Paper) (K : List String)
    (hK : ∀ k, k ∈ K → ∃ c, c ∈ k.data ∧ pyIsSpace c = true) :
    filter_papers_by_keyword P K = [] := by
  rw [filter_papers_by_keyword, filterByKeywordGo_eq_filter]
  rw [List.filter_eq_nil_iff]
  intro p _ hmatch
  rcases (keywordMatch_iff K p).mp hmatch with ⟨k, hk, hmem⟩
  rcases hK k hk with ⟨c, hc, hcs⟩
  have hmemLow : Char.toLower c ∈ (pyLower k).data :=
    List.mem_map_of_mem Char.toLower hc
  have hlowSpace : pyIsSpace (Char.toLower c) = true := by
    rw [pyIsSpace_toLower_self hcs]; exact hcs
  have := pySplitGo_no_space (pyLower p.summary).data []
    (by intro c hc; simp at hc) (pyLower k) hmem (Char.toLower c) hmemLow
  rw [hlowSpace] at this
  exact absurd this (by decide)

/-- Witness for C10: the two-word keyword "machine learning" matches nothing,
even a paper whose summary contains both words. -/
def pML : Paper := { id := "m", title := "M", summary := "machine learning rocks", pdf := "um" }

/-- Witness for C10: with only whitespace-containing keywords, the filter
returns the empty list. -/
theorem filter_whitespace_keyword_no_match_witness :
    filter_papers_by_keyword [pML] ["machine learning"] = [] :=
  filter_whitespace_keyword_no_match [pML] ["machine learning"] (by decide)

/-- True exactly on `Except.ok`; models a Python call that returns normally
instead of raising. -/
def exceptOk {ε α : Type} : Except ε α → Bool
  | .ok _ => true
  | .error _ => false

/-- `filter_papers_using_llm` from `lark_bot/arxiv_paper.py` (lines 59-63).
The external `is_paper_match` (imported from the `llm` module) together with
the fixed `paper_to_hunt` prompt and `config` arguments is the parameter
`mf`; a Python exception raised by the service is `Except.error`.  The source
has no `try`/`except` around the call, so an error ends the loop at once. -/
def filter_papers_using_llm (mf : Paper → Except String Bool) :
    List Paper → Except String (List Paper)
  | [] => .ok []
  | p :: ps =>
    match mf p with
    | .error e => .error e
    | .ok b =>
      match filter_papers_using_llm mf ps with
      | .error e => .error e
      | .ok rest => .ok (if b then p :: rest else rest)

/-- A match function that fails on the paper with id "a" and matches every
other paper. -/
def mfEx : Paper → Except String Bool :=
  fun p => if p.id = "a" then .error "llm failure" else .ok true

/-- C1 counterexample: with a match function that raises on `pA` and accepts
`pB`, the claim predicts the filter continues and returns `[pB]`; the code
instead aborts the whole filter with the propagated error. -/
theorem filter_llm_abort_cex :
    filter_papers_using_llm mfEx [pA, pB] = Except.error "llm failure" ∧
    filter_papers_using_llm mfEx [pA, pB] ≠ Except.ok [pB] := by
  constructor
  · rfl
  · rw [show filter_papers_using_llm mfEx [pA, pB] = Except.error "llm failure" from rfl]
    intro h
    exact Except.noConfusion h

/-- C1 (amended): when the match function raises on a paper, the failure
propagates out of `filter_papers_using_llm` and aborts the whole filter: if
the calls on all earlier papers return normally and the call on `p` raises
`e`, the result is `Except.error e` and no filtered list is produced. -/
theorem filter_llm_error_propagates (mf : Paper → Except String Bool)
    (xs ys : List Paper) (p : Paper) (e : String)
    (hok : ∀ q, q ∈ xs → exceptOk (mf q) = true)
    (he : mf p = .error e) :
    filter_papers_using_llm mf (xs ++ p :: ys) = .error e := by
  induction xs with
  | nil => simp only [List.nil_append, filter_papers_using_llm, he]
  | cons q qs ih =>
    have hq := hok q (List.mem_cons_self _ _)
    obtain ⟨b, hb⟩ : ∃ b, mf q = .ok b := by
      cases hmf : mf q with
      | error e' => rw [hmf] at hq; simp [exceptOk] at hq
      | ok b => exact ⟨b, rfl⟩
    have ihh := ih (fun r hr => hok r (List.mem_cons_of_mem _ hr))
    simp only [List.cons_append, filter_papers_using_llm, hb, List.append_eq, ihh]

/-- Witness for C1 (amended): the match succeeds on `pB`, raises on `pA`, and
the whole filter returns the error. -/
theorem filter_llm_error_propagates_witness :
    filter_papers_using_llm mfEx [pB, pA] = Except.error "llm failure" :=
  filter_llm_error_propagates mfEx [pB] [] pA "llm failure" (by decide) rfl

/-- Python truthiness of the translation result: `None` and the empty string
are falsy, any other string is truthy. -/
def pyTruthy : Option String → Bool
  | none => false
  | some s => s != ""

/-- `translate_abstracts` from `lark_bot/arxiv_paper.py` (lines 113-119).
The external `translate_abstract` with its fixed `config` is the parameter
`tr`; `Except.error` models a raised exception, `Except.ok none` a `None`
return and `Except.ok (some s)` a string return.  Per paper the source sets
`paper["zh_summary"] = None` and overwrites it with the translation only when
the latter is truthy; there is no `try`/`except`, so a raising call ends the
loop.  (The source mutates the papers in place and returns the same list;
the embedding returns the updated papers.) -/
def translate_abstracts (tr : String → Except String (Option String)) :
    List Paper → Except String (List Paper)
  | [] => .ok []
  | p :: ps =>
    match tr p.summary with
    | .error e => .error e
    | .ok zh =>
      match translate_abstracts tr ps with
      | .error e => .error e
      | .ok rest =>
        .ok ({ p with zh_summary := some (if pyTruthy zh then zh else none) } :: rest)

/-- The `zh_summary` value `translate_abstracts` attaches to `p` when the
translation call returns normally. -/
def zhValue (tr : String → Except String (Option String)) (p : Paper) : Option String :=
  match tr p.summary with
  | .ok zh => if pyTruthy zh then zh else none
  | .error _ => none

/-- A translation function that raises on `pA`'s abstract ("s") and succeeds
elsewhere. -/
def trEx : String → Except String (Option String) :=
  fun s => if s = "s" then .error "translate failure" else .ok (some "zh")

/-- C2 counterexample: with a translation call that raises on `pA`'s abstract
and succeeds on `pB`'s, the claim predicts the batch continues with
`pA.zh_summary` set to explicit null; the code instead aborts the batch with
the propagated error. -/
theorem translate_abort_cex :
    translate_abstracts trEx [pA, pB] = Except.error "translate failure" ∧
    translate_abstracts trEx [pA, pB] ≠
      Except.ok [{ pA with zh_summary := some none },
        { pB with zh_summary := some (some "zh") }] := by
  constructor
  · rfl
  · rw [show translate_abstracts trEx [pA, pB] = Except.error "translate failure" from rfl]
    intro h
    exact Except.noConfusion h

theorem translate_abstracts_ok_map (tr : String → Except String (Option String))
    (papers : List Paper) (hok : ∀ p, p ∈ papers → exceptOk (tr p.summary) = true) :
    translate_abstracts tr papers =
      .ok (papers.map (fun p => { p with zh_summary := some (zhValue tr p) })) := by
  induction papers with
  | nil => rfl
  | cons p ps ih =>
    have hp := hok p (List.mem_cons_self _ _)
    obtain ⟨zh, hzh⟩ : ∃ zh, tr p.summary = .ok zh := by
      cases htr : tr p.summary with
      | error e => rw [htr] at hp; simp [exceptOk] at hp
      | ok zh => exact ⟨zh, rfl⟩
    have ihh := ih (fun q hq => hok q (List.mem_cons_of_mem _ hq))
    simp only [translate_abstracts, hzh, ihh, List.map_cons, zhValue]

theorem translate_abstracts_ok_field (tr : String → Except String (Option String)) :
    ∀ (papers l : List Paper), translate_abstracts tr papers = .ok l →
      ∀ p, p ∈ l → p.zh_summary ≠ none := by
  intro papers
  induction papers with
  | nil =>
    intro l hl p hp
    simp only [translate_abstracts] at hl
    injection hl with hl
    subst hl
    simp at hp
  | cons q qs ih =>
    intro l hl p hp
    simp only [translate_abstracts] at hl
    cases htr : tr q.summary with
    | error e => rw [htr] at hl; exact Except.noConfusion hl
    | ok zh =>
      rw [htr] at hl
      cases hrec : translate_abstracts tr qs with
      | error e => rw [hrec] at hl; exact Except.noConfusion hl
      | ok rest =>
        rw [hrec] at hl
        injection hl with hl
        subst hl
        rcases List.mem_cons.mp hp with hp | hp
        · subst hp; simp
        · exact ih rest hrec p hp

theorem translate_abstracts_error_prop (tr : String → Except String (Option String))
    (xs ys : List Paper) (p : Paper) (e : String)
    (hok : ∀ q, q ∈ xs → exceptOk (tr q.summary) = true)
    (he : tr p.summary = .error e) :
    translate_abstracts tr (xs ++ p :: ys) = .error e := by
  induction xs with
  | nil => simp only [List.nil_append, translate_abstracts, he]
  | cons q qs ih =>
    have hq := hok q (List.mem_cons_self _ _)
    obtain ⟨zh, hzh⟩ : ∃ zh, tr q.summary = .ok zh := by
      cases htr : tr q.summary with
      | error e' => rw [htr] at hq; simp [exceptOk] at hq
      | ok zh => exact ⟨zh, rfl⟩
    have ihh := ih (fun r hr => hok r (List.mem_cons_of_mem _ hr))
    simp only [List.cons_append, translate_abstracts, hzh, List.append_eq, ihh]

/-- C2 (amended): when every translation call returns normally,
`translate_abstracts` returns the input papers each with `zh_summary` set to
an explicit value — null when the call returned a falsy/empty result, the
translation otherwise; in every normally returned batch the field is never
absent; but a translation call that raises propagates and aborts the rest of
the batch. -/
theorem translate_abstracts_amended (tr : String → Except String (Option String))
    (papers : List Paper) :
    ((∀ p, p ∈ papers → exceptOk (tr p.summary) = true) →
      translate_abstracts tr papers =
        .ok (papers.map (fun p => { p with zh_summary := some (zhValue tr p) }))) ∧
    (∀ l, translate_abstracts tr papers = .ok l → ∀ p, p ∈ l → p.zh_summary ≠ none) ∧
    (∀ xs p ys e, papers = xs ++ p :: ys →
      (∀ q, q ∈ xs → exceptOk (tr q.summary) = true) →
      tr p.summary = .error e → translate_abstracts tr papers = .error e) := by
  refine ⟨fun hok => translate_abstracts_ok_map tr papers hok,
    fun l hl p hp => translate_abstracts_ok_field tr papers l hl p hp,
    fun xs p ys e hpap hok he => ?_⟩
  subst hpap
  exact translate_abstracts_error_prop tr xs ys p e hok he

/-- Witness for C2 (amended): a translation service that returns `None` for
every abstract yields papers whose `zh_summary` is present and explicitly
null. -/
theorem translate_abstracts_amended_witness :
    translate_abstracts (fun _ => Except.ok none) [pA] =
      Except.ok [{ pA with zh_summary := some none }] :=
  (translate_abstracts_amended (fun _ => Except.ok none) [pA]).1 (by decide)

/-- State of the record-store file on disk: `missing` when `os.path.exists`
is false, `stored content` otherwise (with the file's full text). -/
inductive FileState where
  | missing
  | stored (content : String)
deriving DecidableEq

/-- Reading the store back: opening the file and running `json.loads` on its
content.  The `json` codec is external (Python stdlib), so the parser is a
parameter: `parse s = some l` models a successful parse and `none` a raised
`JSONDecodeError`. -/
def readStore (parse : String → Option (List Paper)) : FileState → Option (List Paper)
  | .missing => none
  | .stored s => parse s

/-- `deduplicate_papers` from `lark_bot/arxiv_paper.py` (lines 73-83): when
the store file exists and has non-empty content, parse it (a parse failure
raises) and drop every candidate whose id is among the stored ids; otherwise
return the candidates unchanged.  The function only reads the store — its
result carries no new `FileState`. -/
def deduplicate_papers (parse : String → Option (List Paper))
    (papers : List Paper) (fs : FileState) : Except String (List Paper) :=
  match fs with
  | .missing => .ok papers
  | .stored content =>
    if content = "" then .ok papers
    else
      match parse content with
      | none => .error "json.loads: invalid JSON"
      | some prev =>
        .ok (papers.filter (fun d => !((prev.map Paper.id).contains d.id)))

/-- C6: `deduplicate_papers` returns exactly the candidates whose id does not
occur among the stored ids, in input order (an order-preserving sublist);
a missing file or empty content removes nothing; and the embedding is a pure
read — no store write occurs. -/
theorem deduplicate_papers_spec (parse : String → Option (List Paper))
    (papers : List Paper) (fs : FileState) :
    ((fs = FileState.missing ∨ fs = FileState.stored "") →
      deduplicate_papers parse papers fs = .ok papers) ∧
    (∀ s prev, fs = FileState.stored s → s ≠ "" → parse s = some prev →
      ∃ res, deduplicate_papers parse papers fs = .ok res ∧
        res.Sublist papers ∧
        (∀ d, d ∈ res ↔ d ∈ papers ∧ ¬ ∃ q, q ∈ prev ∧ q.id = d.id)) := by
  constructor
  · rintro (h | h) <;> subst h <;> simp [deduplicate_papers]
  · intro s prev hfs hs hp
    subst hfs
    refine ⟨papers.filter (fun d => !((prev.map Paper.id).contains d.id)), ?_, ?_, ?_⟩
    · simp only [deduplicate_papers, if_neg hs, hp]
    · exact List.filter_sublist papers
    · intro d
      rw [List.mem_filter]
      constructor
      · rintro ⟨hmem, hf⟩
        refine ⟨hmem, ?_⟩
        rintro ⟨q, hq, hqid⟩
        rw [Bool.not_eq_true'] at hf
        have : d.id ∈ prev.map Paper.id := hqid ▸ List.mem_map_of_mem Paper.id hq
        rw [List.contains] at hf
        have htrue := List.elem_iff.mpr this
        rw [hf] at htrue
        exact Bool.noConfusion htrue
      · rintro ⟨hmem, hno⟩
        refine ⟨hmem, ?_⟩
        rw [Bool.not_eq_true', List.contains]
        cases he : (prev.map Paper.id).elem d.id
        · rfl
        · rcases List.mem_map.mp (List.elem_iff.mp he) with ⟨q, hq, hqid⟩
          exact absurd ⟨q, hq, hqid⟩ hno

/-- Witness for C6: with the store parsing to `[pA2]` (id "a"), the candidate
`pA` is dropped and `pB` is kept, in order. -/
theorem deduplicate_papers_spec_witness :
    ∃ res, deduplicate_papers (fun _ => some [pA2]) [pA, pB] (FileState.stored "x") =
        .ok res ∧ res.Sublist [pA, pB] ∧
      (∀ d, d ∈ res ↔ d ∈ [pA, pB] ∧ ¬ ∃ q, q ∈ [pA2] ∧ q.id = d.id) :=
  (deduplicate_papers_spec (fun _ => some [pA2]) [pA, pB] (FileState.stored "x")).2
    "x" [pA2] rfl (by decide) rfl

/-- C7: when the store file exists with non-empty content that does not parse
as JSON, `deduplicate_papers` propagates the parse failure instead of
treating the store as empty or returning a candidate list. -/
theorem deduplicate_papers_raises_on_malformed (parse : String → Option (List Paper))
    (papers : List Paper) (s : String) (hs : s ≠ "") (hp : parse s = none) :
    ∃ e, deduplicate_papers parse papers (FileState.stored s) = .error e := by
  refine ⟨"json.loads: invalid JSON", ?_⟩
  simp only [deduplicate_papers, if_neg hs, hp]

/-- Witness for C7: a store holding the non-JSON text "not json" makes the
dedup raise. -/
theorem deduplicate_papers_raises_on_malformed_witness :
    ∃ e, deduplicate_papers (fun _ => none) [pA] (FileState.stored "not json") =
      Except.error e :=
  deduplicate_papers_raises_on_malformed (fun _ => none) [pA] "not json" (by decide) rfl

/-- `prepend_to_json_file` from `lark_bot/arxiv_paper.py` (lines 92-103):
read the existing content (missing file or empty text count as `[]`, a parse
failure raises before anything is written), then rewrite the file with
`json.dump(data + content)`.  The `json` serializer is the external `encode`
parameter. -/
def prepend_to_json_file (parse : String → Option (List Paper))
    (encode : List Paper → String) (fs : FileState) (data : List Paper) :
    Except String FileState :=
  let old : Except String (List Paper) :=
    match fs with
    | .missing => .ok []
    | .stored s =>
      if s = "" then .ok []
      else
        match parse s with
        | none => .error "json.loads: invalid JSON"
        | some prev => .ok prev
  match old with
  | .error e => .error e
  | .ok prev => .ok (.stored (encode (data ++ prev)))

/-- C5: starting from a missing or empty store file, writing `new` and
reading back yields exactly `new`; writing `A` and then `B` and reading back
yields `B ++ A`, new entries before all previously stored ones with each
list's internal order preserved.  The hypotheses on `parse`/`encode` are the
round-trip guarantees of the external `json` codec at the values written
(`json.dump` output is non-empty and `json.loads` inverts it). -/
theorem prepend_fresh_roundtrip (parse : String → Option (List Paper))
    (encode : List Paper → String) (fs0 : FileState) (A B new : List Paper)
    (h0 : fs0 = FileState.missing ∨ fs0 = FileState.stored "")
    (hnew : parse (encode new) = some new)
    (hA : encode A ≠ "")
    (hAr : parse (encode A) = some A)
    (hBA : parse (encode (B ++ A)) = some (B ++ A)) :
    (∃ fs1, prepend_to_json_file parse encode fs0 new = .ok fs1 ∧
      readStore parse fs1 = some new) ∧
    (∀ fs1, prepend_to_json_file parse encode fs0 A = .ok fs1 →
      ∃ fs2, prepend_to_json_file parse encode fs1 B = .ok fs2 ∧
        readStore parse fs2 = some (B ++ A)) := by
  constructor
  · refine ⟨.stored (encode new), ?_, ?_⟩
    · rcases h0 with h | h <;> subst h <;> simp [prepend_to_json_file]
    · simpa [readStore] using hnew
  · intro fs1 h1
    have hAeq : prepend_to_json_file parse encode fs0 A = .ok (.stored (encode A)) := by
      rcases h0 with h | h <;> subst h <;> simp [prepend_to_json_file]
    rw [hAeq] at h1
    injection h1 with h1
    subst h1
    refine ⟨.stored (encode (B ++ A)), ?_, ?_⟩
    · simp only [prepend_to_json_file, if_neg hA, hAr]
    · simpa [readStore] using hBA

/-- Paper with a given id and empty remaining fields, for the concrete codec
below. -/
def mkP (i : String) : Paper :=
  { id := i, title := "", summary := "", pdf := "" }

/-- Concrete serializer used only to discharge the codec hypotheses of the
store theorems at concrete values: a comma-terminated list of ids of papers
built by `mkP`. -/
def encW (l : List Paper) : String :=
  String.join (l.map (fun p => p.id ++ ","))

/-- Loop of the concrete parser matching `encW`: accumulate id characters
until each comma. -/
def parseWGo : List Char → List Char → List Paper
  | [], _ => []
  | c :: cs, acc =>
    if c = ',' then mkP (String.mk acc.reverse) :: parseWGo cs []
    else parseWGo cs (c :: acc)

/-- Concrete parser matching `encW`; empty text does not parse, like
`json.loads("")`. -/
def parseW (s : String) : Option (List Paper) :=
  if s = "" then none else some (parseWGo s.data [])

/-- Witness for C5: with the concrete codec, writing `[mkP "a"]` into a
missing file and reading back returns exactly `[mkP "a"]`. -/
theorem prepend_fresh_roundtrip_witness :
    ∃ fs1, prepend_to_json_file parseW encW FileState.missing [mkP "a"] = .ok fs1 ∧
      readStore parseW fs1 = some [mkP "a"] :=
  (prepend_fresh_roundtrip parseW encW FileState.missing [mkP "b"] [mkP "c"] [mkP "a"]
    (Or.inl rfl) (by decide) (by decide) (by decide) (by decide)).1

/-- Destination reference returned by `parse_base_url`: `app_token` is a
string (possibly empty) and `table_id` comes from the optional `table` query
parameter (`None` when absent). -/
structure BInfo where
  app_token : String
  table_id : Option String
deriving DecidableEq

/-- Outcome of the HTTP POST inside `create_bitable_record`: `exn` models a
raised exception (network error, `raise_for_status`), and `resp code rid` a
parsed JSON response with its `code` field (`result.get("code", 0)`) and the
`record_id` reached by `result.get("data").get("record").get("record_id", "")`
("" when absent). -/
inductive HttpResult where
  | exn (e : String)
  | resp (code : Int) (record_id : String)
deriving DecidableEq

/-- `create_bitable_record` from `lark_bot/lark_table.py` (lines 151-172),
over the outcome of its HTTP call: an exception or a response with non-zero
`code` yields the error component (Go-style `(result, err)` with `err` set),
otherwise the success response — whose `record_id` may still be absent,
modelled as the empty string. -/
def create_bitable_record (r : HttpResult) : Except String String :=
  match r with
  | .exn e => .error e
  | .resp code record_id =>
    if code ≠ 0 then .error "failed to create record" else .ok record_id

/-- Fields dict built per paper by `push_results_to_lark_table`: title, the
text+link pair (both the pdf url), and the summary from
`paper.get("zh_summary", None)`.  The `Date` entry is the wall clock at call
time and is absorbed into the per-iteration HTTP oracle. -/
structure Fields where
  title : String
  link_text : String
  link_url : String
  summary : Option String
deriving DecidableEq

/-- Fields dict for one paper, as built at `lark_table.py` lines 180-188. -/
def fieldsOf (p : Paper) : Fields :=
  { title := p.title, link_text := p.pdf, link_url := p.pdf,
    summary := p.zh_summary.join }

/-- External world of one `push_results_to_lark_table` run, indexed by the
loop iteration: the token service (`get_tenant_access_token`, called once per
paper), the destination resolution (`parse_base_url`, whose raised exceptions
are `Except.error`), and the HTTP call inside `create_bitable_record`. -/
structure LarkEnv where
  getToken : Nat → Except String String
  parseBase : Nat → Except String BInfo
  createHttp : Nat → Fields → HttpResult

/-- Final state of a `push_results_to_lark_table` run: `completed rs` when
the loop finished, with one created-row id per paper ("" when the success
response lacked one, which is only logged); `fatal n` when `exit(1)` was
reached after `n` papers had been fully processed. -/
inductive PushOutcome where
  | completed (record_ids : List String)
  | fatal (processed : Nat)
deriving DecidableEq

/-- Loop of `push_results_to_lark_table` (`lark_table.py` lines 179-220),
iteration index `i`: per paper, acquire a token (error ⇒ `exit(1)`), resolve
the destination (exception, falsy `app_token` or falsy `table_id` ⇒
`exit(1)`), create the record (error ⇒ `exit(1)`), then log — with or
without a record id — and continue. -/
def pushGo (env : LarkEnv) (i : Nat) : List Paper → PushOutcome
  | [] => .completed []
  | p :: ps =>
    match env.getToken i with
    | .error _ => .fatal i
    | .ok _ =>
      match env.parseBase i with
      | .error _ => .fatal i
      | .ok info =>
        if info.app_token = "" then .fatal i
        else
          match info.table_id with
          | none => .fatal i
          | some tid =>
            if tid = "" then .fatal i
            else
              match create_bitable_record (env.createHttp i (fieldsOf p)) with
              | .error _ => .fatal i
              | .ok rid =>
                match pushGo env (i + 1) ps with
                | .completed rs => .completed (rid :: rs)
                | .fatal n => .fatal n

/-- `push_results_to_lark_table` from `lark_bot/lark_table.py`. -/
def push_results_to_lark_table (env : LarkEnv) (papers : List Paper) : PushOutcome :=
  pushGo env 0 papers

/-- All sink calls of iteration `i` on paper `p` succeed: token acquired,
destination resolved with truthy `app_token` and `table_id`, record created
with a success response (whether or not it carries a record id). -/
def callsOk (env : LarkEnv) (i : Nat) (p : Paper) : Bool :=
  exceptOk (env.getToken i) &&
    match env.parseBase i with
    | .error _ => false
    | .ok info =>
      (info.app_token != "") &&
        match info.table_id with
        | none => false
        | some tid =>
          (tid != "") && exceptOk (create_bitable_record (env.createHttp i (fieldsOf p)))

/-- Created-row id reported for iteration `i` on paper `p` ("" when the
success response carried none). -/
def ridOf (env : LarkEnv) (i : Nat) (p : Paper) : String :=
  match create_bitable_record (env.createHttp i (fieldsOf p)) with
  | .ok rid => rid
  | .error _ => ""

/-- Record ids of a fully successful run starting at iteration `i`. -/
def ridsFrom (env : LarkEnv) : Nat → List Paper → List String
  | _, [] => []
  | i, p :: ps => ridOf env i p :: ridsFrom env (i + 1) ps

/-- Every iteration from `i` on succeeds on the corresponding paper. -/
def allCallsOk (env : LarkEnv) : Nat → List Paper → Bool
  | _, [] => true
  | i, p :: ps => callsOk env i p && allCallsOk env (i + 1) ps

theorem pushGo_completed (env : LarkEnv) (ps : List Paper) :
    ∀ i, allCallsOk env i ps = true → pushGo env i ps = .completed (ridsFrom env i ps) := by
  induction ps with
  | nil => intro i _; rfl
  | cons p ps ih =>
    intro i h
    rw [allCallsOk, Bool.and_eq_true] at h
    obtain ⟨hc, hrest⟩ := h
    cases ht : env.getToken i with
    | error e => simp [callsOk, ht, exceptOk] at hc
    | ok tok =>
      cases hpb : env.parseBase i with
      | error e => simp [callsOk, ht, hpb, exceptOk] at hc
      | ok info =>
        cases htid : info.table_id with
        | none => simp [callsOk, ht, hpb, htid, exceptOk] at hc
        | some tid =>
          cases hcr : create_bitable_record (env.createHttp i (fieldsOf p)) with
          | error e => simp [callsOk, ht, hpb, htid, hcr, exceptOk] at hc
          | ok rid =>
            simp only [callsOk, ht, hpb, htid, hcr, exceptOk, Bool.true_and,
              Bool.and_true, Bool.and_eq_true, bne_iff_ne] at hc
            simp only [pushGo, ht, hpb, htid, hcr, if_neg hc.1, if_neg hc.2,
              ih (i + 1) hrest, ridsFrom, ridOf]

theorem pushGo_fatal (env : LarkEnv) (xs : List Paper) :
    ∀ i p ys, allCallsOk env i xs = true → callsOk env (i + xs.length) p = false →
      pushGo env i (xs ++ p :: ys) = .fatal (i + xs.length) := by
  induction xs with
  | nil =>
    intro i p ys _ hfail
    simp only [List.length_nil, Nat.add_zero] at hfail ⊢
    simp only [List.nil_append]
    cases ht : env.getToken i with
    | error e => simp [pushGo, ht]
    | ok tok =>
      cases hpb : env.parseBase i with
      | error e => simp [pushGo, ht, hpb]
      | ok info =>
        by_cases happ : info.app_token = ""
        · simp [pushGo, ht, hpb, happ]
        · cases htid : info.table_id with
          | none => simp [pushGo, ht, hpb, happ, htid]
          | some tid =>
            by_cases htid2 : tid = ""
            · simp [pushGo, ht, hpb, happ, htid, htid2]
            · cases hcr : create_bitable_record (env.createHttp i (fieldsOf p)) with
              | error e => simp [pushGo, ht, hpb, happ, htid, htid2, hcr]
              | ok rid =>
                exfalso
                simp [callsOk, ht, hpb, htid, hcr, exceptOk, happ, htid2] at hfail
  | cons q qs ih =>
    intro i p ys hall hfail
    rw [allCallsOk, Bool.and_eq_true] at hall
    obtain ⟨hq, hrest⟩ := hall
    have hlen : i + (q :: qs).length = (i + 1) + qs.length := by
      simp [List.length_cons]
      omega
    rw [hlen] at hfail ⊢
    have ihh := ih (i + 1) p ys hrest hfail
    cases ht : env.getToken i with
    | error e => simp [callsOk, ht, exceptOk] at hq
    | ok tok =>
      cases hpb : env.parseBase i with
      | error e => simp [callsOk, ht, hpb, exceptOk] at hq
      | ok info =>
        cases htid : info.table_id with
        | none => simp [callsOk, ht, hpb, htid, exceptOk] at hq
        | some tid =>
          cases hcr : create_bitable_record (env.createHttp i (fieldsOf q)) with
          | error e => simp [callsOk, ht, hpb, htid, hcr, exceptOk] at hq
          | ok rid =>
            simp only [callsOk, ht, hpb, htid, hcr, exceptOk, Bool.true_and,
              Bool.and_true, Bool.and_eq_true, bne_iff_ne] at hq
            simp only [List.cons_append, pushGo, ht, hpb, htid, hcr,
              if_neg hq.1, if_neg hq.2, List.append_eq, ihh]

/-- C9: `push_results_to_lark_table` terminates the run with `exit(1)` as
soon as an iteration's sink calls fail — all earlier papers fully processed,
the failing and later papers not — whereas when every iteration's calls
succeed the run completes over all papers, reporting per paper the created
row id or "" when the success response lacked one (which is logged, never
fatal). -/
theorem push_results_spec (env : LarkEnv) (papers : List Paper) :
    (allCallsOk env 0 papers = true →
      push_results_to_lark_table env papers = .completed (ridsFrom env 0 papers)) ∧
    (∀ xs p ys, papers = xs ++ p :: ys → allCallsOk env 0 xs = true →
      callsOk env xs.length p = false →
      push_results_to_lark_table env papers = .fatal xs.length) := by
  constructor
  · intro h
    exact pushGo_completed env papers 0 h
  · intro xs p ys hpap hall hfail
    subst hpap
    have := pushGo_fatal env xs 0 p ys hall (by simpa using hfail)
    simpa using this

/-- Environment for the C9 witness: all calls succeed; the first record
response carries an id, the second one does not. -/
def envW : LarkEnv :=
  { getToken := fun _ => .ok "tok",
    parseBase := fun _ => .ok { app_token := "app", table_id := some "tbl" },
    createHttp := fun i _ => if i = 0 then .resp 0 "rec0" else .resp 0 "" }

/-- Witness for C9: two papers, the second success response without a record
id; the run still completes, reporting "" for it. -/
theorem push_results_spec_witness :
    push_results_to_lark_table envW [pA, pB] = PushOutcome.completed ["rec0", ""] :=
  (push_results_spec envW [pA, pB]).1 (by decide)
